import Mathlib

/-!
# Verification of the SnapSort near-duplicate detection core

Shallow embedding of the core of the SnapSort repository:

* `src/dedup_utils.py` — `DeduplicationIndex` (constructor, `add_record`,
  `_gather_candidate_ids`, `find_best_match`, `_calculate_similarity`);
* `src/fast_hash.py` — `compute_smart_hash`, `compute_progressive_hash`,
  `FastHashCache.get_hash`;
* the part of Python's `difflib.SequenceMatcher` (constructed with
  `isjunk=None`) that `_calculate_similarity` calls for the filename signal:
  `__chain_b` (`b2j` with the autojunk purge), `find_longest_match`,
  `get_matching_blocks` and `ratio`.

Modelling conventions:

* Python `float` arithmetic is modelled exactly over `ℚ`; `round(x, 2)`
  (round-half-to-even) is modelled by `round2` below.
* File contents are `List ℕ` (byte lists); a cryptographic digest of a byte
  stream is modelled by the byte stream itself that is fed to the hasher
  (two digests are equal iff the streams fed to SHA-256 are equal, up to
  hash collisions which the spec does not rely on).
* Python dicts are insertion-ordered association lists, Python sets of
  record ids are deduplicated insertion-ordered lists.
-/

set_option autoImplicit false

/-- First-match association-list lookup (Python `dict.get`). -/
def assocFind {α β : Type} [DecidableEq α] : List (α × β) → α → Option β
  | [], _ => none
  | (k, v) :: rest, key => if k = key then some v else assocFind rest key

/-- Round-half-to-even to an integer (Python's `round` on an exact value). -/
def roundHalfEven (q : ℚ) : ℤ :=
  if q - ⌊q⌋ < 1/2 then ⌊q⌋
  else if 1/2 < q - ⌊q⌋ then ⌊q⌋ + 1
  else if 2 ∣ ⌊q⌋ then ⌊q⌋ else ⌊q⌋ + 1

/-- Python `round(x, 2)` modelled exactly on `ℚ`. -/
def round2 (q : ℚ) : ℚ := (roundHalfEven (q * 100) : ℚ) / 100

/-! ## difflib.SequenceMatcher (isjunk = None), as called by `_calculate_similarity`

`SequenceMatcher(None, a, b)` is created with `isjunk=None` and
`autojunk=True`, so `self.bjunk` is always empty and `b2j` holds, for each
element of `b`, its ascending list of positions, with "popular" elements
purged when `len(b) >= 200`. -/

/-- `b2j[c]` before the autojunk purge: ascending positions of `c` in `b`. -/
def b2jAll (b : List Char) (c : Char) : List ℕ :=
  (List.range b.length).filter (fun j => decide (b.getD j c = c))

/-- `b2j[c]` after the autojunk purge (`__chain_b` with `isjunk=None`):
for `len(b) >= 200`, elements occurring more than `len(b) // 100 + 1` times
are deleted from `b2j`. -/
def b2jPurged (b : List Char) (c : Char) : List ℕ :=
  let l := b2jAll b c
  if 200 ≤ b.length ∧ b.length / 100 + 1 < l.length then [] else l

/-- `self.bjunk` for `isjunk=None`: always empty. -/
def bjunkNone : List Char := []

/-- `k = j2len.get(j-1, 0) + 1` in the inner loop of `find_longest_match`.
(With `j = 0`, Python looks up key `-1`, which is never present.) -/
def kval (j2len : List (ℕ × ℕ)) (j : ℕ) : ℕ :=
  (if j = 0 then 0 else (assocFind j2len (j - 1)).getD 0) + 1

/-- The inner loop of `find_longest_match` over `b2j.get(a[i], [])`:
maintains `newj2len` (`cur`) and the current best `(besti, bestj, bestsize)`.
`j2len` is the dictionary from the previous row.  Mirrors:
`for j in ...: if j < blo: continue; if j >= bhi: break;
 k = newj2len[j] = j2len.get(j-1, 0) + 1;
 if k > bestsize: besti, bestj, bestsize = i-k+1, j-k+1, k`. -/
def flmInner (blo bhi i : ℕ) (j2len : List (ℕ × ℕ)) :
    List ℕ → List (ℕ × ℕ) → ℕ × ℕ × ℕ → (List (ℕ × ℕ)) × (ℕ × ℕ × ℕ)
  | [], cur, best => (cur, best)
  | j :: js, cur, best =>
    if j < blo then flmInner blo bhi i j2len js cur best
    else if bhi ≤ j then (cur, best)
    else
      let k := kval j2len j
      let cur' := (j, k) :: cur
      let best' := if best.2.2 < k then (i + 1 - k, j + 1 - k, k) else best
      flmInner blo bhi i j2len js cur' best'

/-- The outer loop of `find_longest_match` (`for i in range(alo, ahi)`),
driven by the number of remaining rows; each row starts a fresh `newj2len`
and installs it as `j2len` for the next row. -/
def flmRows (a b : List Char) (blo bhi : ℕ) :
    ℕ → ℕ → List (ℕ × ℕ) → ℕ × ℕ × ℕ → ℕ × ℕ × ℕ
  | _, 0, _, best => best
  | i, rows + 1, j2len, best =>
    let step := flmInner blo bhi i j2len (b2jPurged b (a.getD i ' ')) [] best
    flmRows a b blo bhi (i + 1) rows step.1 step.2

/-- First extension loop of `find_longest_match`: extend the best block
downward over equal, non-junk elements.  `fuel` bounds the iteration count
(the loop decreases `besti`, so `fuel = besti` suffices). -/
def extLo (a b : List Char) (alo blo : ℕ) : ℕ → ℕ × ℕ × ℕ → ℕ × ℕ × ℕ
  | 0, best => best
  | fuel + 1, (bi, bj, bs) =>
    if alo < bi ∧ blo < bj ∧ b.getD (bj - 1) ' ' ∉ bjunkNone ∧
        a.getD (bi - 1) ' ' = b.getD (bj - 1) ' ' then
      extLo a b alo blo fuel (bi - 1, bj - 1, bs + 1)
    else (bi, bj, bs)

/-- Second extension loop: extend upward over equal, non-junk elements. -/
def extHi (a b : List Char) (ahi bhi : ℕ) : ℕ → ℕ × ℕ × ℕ → ℕ × ℕ × ℕ
  | 0, best => best
  | fuel + 1, (bi, bj, bs) =>
    if bi + bs < ahi ∧ bj + bs < bhi ∧ b.getD (bj + bs) ' ' ∉ bjunkNone ∧
        a.getD (bi + bs) ' ' = b.getD (bj + bs) ' ' then
      extHi a b ahi bhi fuel (bi, bj, bs + 1)
    else (bi, bj, bs)

/-- Third extension loop (junk, downward).  With `isjunk=None` the junk set
is empty, so the loop body never runs. -/
def extLoJunk (a b : List Char) (alo blo : ℕ) : ℕ → ℕ × ℕ × ℕ → ℕ × ℕ × ℕ
  | 0, best => best
  | fuel + 1, (bi, bj, bs) =>
    if alo < bi ∧ blo < bj ∧ b.getD (bj - 1) ' ' ∈ bjunkNone ∧
        a.getD (bi - 1) ' ' = b.getD (bj - 1) ' ' then
      extLoJunk a b alo blo fuel (bi - 1, bj - 1, bs + 1)
    else (bi, bj, bs)

/-- Fourth extension loop (junk, upward); never runs for `isjunk=None`. -/
def extHiJunk (a b : List Char) (ahi bhi : ℕ) : ℕ → ℕ × ℕ × ℕ → ℕ × ℕ × ℕ
  | 0, best => best
  | fuel + 1, (bi, bj, bs) =>
    if bi + bs < ahi ∧ bj + bs < bhi ∧ b.getD (bj + bs) ' ' ∈ bjunkNone ∧
        a.getD (bi + bs) ' ' = b.getD (bj + bs) ' ' then
      extHiJunk a b ahi bhi fuel (bi, bj, bs + 1)
    else (bi, bj, bs)

/-- `SequenceMatcher.find_longest_match(alo, ahi, blo, bhi)` for
`isjunk=None`: the main loop followed by the four extension loops. -/
def findLongestMatch (a b : List Char) (alo ahi blo bhi : ℕ) : ℕ × ℕ × ℕ :=
  let best1 := flmRows a b blo bhi alo (ahi - alo) [] (alo, blo, 0)
  let best2 := extLo a b alo blo best1.1 best1
  let best3 := extHi a b ahi bhi ahi best2
  let best4 := extLoJunk a b alo blo best3.1 best3
  extHiJunk a b ahi bhi ahi best4

/-- Total size of the matching blocks of `get_matching_blocks` on the window
`a[alo:ahi]` / `b[blo:bhi]`.  The queue-driven loop in difflib explores
independent subwindows; the total is the sum over the divide-and-conquer
recursion (the final sort and merge of adjacent blocks do not change the
total).  Each recursive call strictly decreases `(ahi-alo)+(bhi-blo)`, so a
fuel of `len(a)+len(b)` at the top-level call is never exhausted. -/
def matchTotal (a b : List Char) : ℕ → ℕ → ℕ → ℕ → ℕ → ℕ
  | 0, _, _, _, _ => 0
  | fuel + 1, alo, ahi, blo, bhi =>
    let m := findLongestMatch a b alo ahi blo bhi
    if m.2.2 = 0 then 0
    else
      m.2.2 +
        (if alo < m.1 ∧ blo < m.2.1 then matchTotal a b fuel alo m.1 blo m.2.1 else 0) +
        (if m.1 + m.2.2 < ahi ∧ m.2.1 + m.2.2 < bhi then
          matchTotal a b fuel (m.1 + m.2.2) ahi (m.2.1 + m.2.2) bhi else 0)

/-- `SequenceMatcher(None, a, b).ratio()`: `2*M / (len(a)+len(b))`, and `1.0`
when both sequences are empty (`_calculate_ratio`). -/
def seqRatio (a b : List Char) : ℚ :=
  if a.length + b.length = 0 then 1
  else 2 * (matchTotal a b (a.length + b.length) 0 a.length 0 b.length : ℚ)
        / (a.length + b.length)

/-- Python `str.lower()` (ASCII-faithful). -/
def strLower (s : String) : String := ⟨s.data.map Char.toLower⟩

/-- Length of the diagonal run ending at position `i` when matching a
string against itself: the number of consecutive positions up to `i` whose
characters survive the autojunk purge (used to reason about
`find_longest_match` on identical sequences). -/
def diagRun (s : List Char) : ℕ → ℕ
  | 0 => if b2jPurged s (s.getD 0 ' ') = [] then 0 else 1
  | i + 1 => if b2jPurged s (s.getD (i + 1) ' ') = [] then 0 else diagRun s i + 1


set_option maxRecDepth 8000

/-! ## Feature records and `_calculate_similarity` (src/dedup_utils.py)

A record is a Python dict; `_calculate_similarity`, `add_record` and
`_gather_candidate_ids` read each field through `record.get(...)` guarded by
`isinstance` checks, so every field is modelled as an `Option`.
`date_taken` is stored as an ISO string and re-parsed by `_parse_datetime`
on every scoring call; we model the stored value by its parse result, an
optional timestamp in seconds (`none` when absent or unparseable). -/

structure FeatureRecord where
  src_path : Option String := none
  file_name : Option String := none
  size : Option ℤ := none
  width : Option ℤ := none
  height : Option ℤ := none
  partial_hash : Option String := none
  mtime : Option ℚ := none
  date_taken : Option ℚ := none
  normalized_name : Option String := none
  resolution : Option ℤ := none

/-- Fingerprint signal: weight 45 when both partial hashes are strings and
equal. -/
def partialHashScore (l r : FeatureRecord) : ℚ :=
  match l.partial_hash, r.partial_hash with
  | some a, some b => if a = b then 45 else 0
  | _, _ => 0

/-- Size signal: both sizes present and truthy (nonzero); weight 20 when
equal, else `20 * (1 - relative_diff / 0.01)` when `relative_diff < 0.01`. -/
def sizeScore (l r : FeatureRecord) : ℚ :=
  match l.size, r.size with
  | some sl, some sr =>
    if sl ≠ 0 ∧ sr ≠ 0 then
      if |sl - sr| = 0 then 20
      else
        let relDiff : ℚ := ((|sl - sr| : ℤ) : ℚ) / ((max sl sr : ℤ) : ℚ)
        if relDiff < 1/100 then 20 * (1 - relDiff / (1/100)) else 0
    else 0
  | _, _ => 0

/-- Resolution signal: all four dimensions present and positive; weight 15
when both dimensions are equal, else scaled by relative area difference
below 5% (the `if area_left and area_right` truthiness test is implied by
positivity). -/
def resolutionScore (l r : FeatureRecord) : ℚ :=
  match l.width, r.width, l.height, r.height with
  | some wl, some wr, some hl, some hr =>
    if 0 < wl ∧ 0 < wr ∧ 0 < hl ∧ 0 < hr then
      if wl = wr ∧ hl = hr then 15
      else
        let areaL := wl * hl
        let areaR := wr * hr
        if areaL ≠ 0 ∧ areaR ≠ 0 then
          let areaDiff : ℚ := (|areaL - areaR| : ℤ) / ((max areaL areaR : ℤ) : ℚ)
          if areaDiff < 5/100 then 15 * (1 - areaDiff / (5/100)) else 0
        else 0
    else 0
  | _, _, _, _ => 0

/-- Filename signal: `10 * SequenceMatcher(None, l.lower(), r.lower()).ratio()`
when both names are strings. -/
def filenameScore (l r : FeatureRecord) : ℚ :=
  match l.file_name, r.file_name with
  | some a, some b => 10 * seqRatio (strLower a).data (strLower b).data
  | _, _ => 0

/-- Capture-time signal: both values parseable; weight 5 when the absolute
difference is zero, else scaled linearly below 300 seconds. -/
def dateTakenScore (l r : FeatureRecord) : ℚ :=
  match l.date_taken, r.date_taken with
  | some dl, some dr =>
    if |dl - dr| = 0 then 5
    else if |dl - dr| < 300 then 5 * (1 - |dl - dr| / 300) else 0
  | _, _ => 0

/-- Modification-time signal: weight 5 when equal, else scaled linearly
below 60 seconds. -/
def mtimeScore (l r : FeatureRecord) : ℚ :=
  match l.mtime, r.mtime with
  | some ml, some mr =>
    if |ml - mr| = 0 then 5
    else if |ml - mr| < 60 then 5 * (1 - |ml - mr| / 60) else 0
  | _, _ => 0

/-- The raw weighted sum accumulated by `_calculate_similarity` before the
final `round(min(score, 100.0), 2)`. -/
def rawSimilarity (l r : FeatureRecord) : ℚ :=
  partialHashScore l r + sizeScore l r + resolutionScore l r +
    filenameScore l r + dateTakenScore l r + mtimeScore l r

/-- `DeduplicationIndex._calculate_similarity`. -/
def calculateSimilarity (l r : FeatureRecord) : ℚ :=
  round2 (min (rawSimilarity l r) 100)

/-! ## DeduplicationIndex state (src/dedup_utils.py)

Python `set`s of record ids are modelled as deduplicated insertion-ordered
lists, `defaultdict(set)` maps as insertion-ordered association lists. -/

/-- `set.add`. -/
def setAdd (s : List ℕ) (x : ℕ) : List ℕ := if x ∈ s then s else s ++ [x]

/-- `defaultdict(set)[key].add(x)`. -/
def mapAdd {κ : Type} [DecidableEq κ] (m : List (κ × List ℕ)) (k : κ) (x : ℕ) :
    List (κ × List ℕ) :=
  match m with
  | [] => [(k, setAdd [] x)]
  | (k', s) :: rest => if k' = k then (k', setAdd s x) :: rest else (k', s) :: mapAdd rest k x

/-- `dict.get(key, set())`. -/
def mapGet {κ : Type} [DecidableEq κ] (m : List (κ × List ℕ)) (k : κ) : List ℕ :=
  (assocFind m k).getD []

structure DeduplicationIndex where
  strict_threshold : ℚ
  log_threshold : ℚ
  partial_hash_bytes : ℤ
  size_bucket_bytes : ℤ
  records : List (ℕ × FeatureRecord)
  next_id : ℕ
  by_partial_hash : List (String × List ℕ)
  by_size_exact : List (ℤ × List ℕ)
  by_size_bucket : List (ℤ × List ℕ)
  by_resolution : List (ℤ × List ℕ)
  by_name : List (String × List ℕ)

/-- `DeduplicationIndex.__init__`: stores the thresholds as given (no
validation) and clamps the bucket width with `max(1024, size_bucket_bytes)`;
all maps start empty and ids start at 1. -/
def DeduplicationIndex.init (strict_threshold log_threshold : ℚ)
    (partial_hash_bytes size_bucket_bytes : ℤ) : DeduplicationIndex where
  strict_threshold := strict_threshold
  log_threshold := log_threshold
  partial_hash_bytes := partial_hash_bytes
  size_bucket_bytes := max 1024 size_bucket_bytes
  records := []
  next_id := 1
  by_partial_hash := []
  by_size_exact := []
  by_size_bucket := []
  by_resolution := []
  by_name := []

/-- `DeduplicationIndex.add_record` (Python `//` on ints is floor division,
modelled by `Int.fdiv`). -/
def DeduplicationIndex.addRecord (idx : DeduplicationIndex) (record : FeatureRecord) :
    DeduplicationIndex :=
  let recordId := idx.next_id
  let byPartial := match record.partial_hash with
    | some h => mapAdd idx.by_partial_hash h recordId
    | none => idx.by_partial_hash
  let bySizeExact := match record.size with
    | some size => mapAdd idx.by_size_exact size recordId
    | none => idx.by_size_exact
  let bySizeBucket := match record.size with
    | some size =>
      let bucket := Int.fdiv size idx.size_bucket_bytes
      mapAdd (mapAdd (mapAdd idx.by_size_bucket (bucket - 1) recordId)
        bucket recordId) (bucket + 1) recordId
    | none => idx.by_size_bucket
  let byResolution := match record.resolution with
    | some r => if 0 < r then mapAdd idx.by_resolution r recordId else idx.by_resolution
    | none => idx.by_resolution
  let byName := match record.normalized_name with
    | some n => if n ≠ "" then mapAdd idx.by_name n recordId else idx.by_name
    | none => idx.by_name
  { idx with
    records := idx.records ++ [(recordId, record)]
    next_id := recordId + 1
    by_partial_hash := byPartial
    by_size_exact := bySizeExact
    by_size_bucket := bySizeBucket
    by_resolution := byResolution
    by_name := byName }

/-- Union of two id sets (`candidates |= other`), preserving first-seen
order. -/
def setUnion (s other : List ℕ) : List ℕ := other.foldl setAdd s

/-- `DeduplicationIndex._gather_candidate_ids`.  Note the truthiness tests:
the partial hash and the normalized name must additionally be non-empty
strings. -/
def DeduplicationIndex.gatherCandidateIds (idx : DeduplicationIndex)
    (record : FeatureRecord) : List ℕ :=
  let c0 : List ℕ := []
  let c1 := match record.partial_hash with
    | some h => if h ≠ "" then setUnion c0 (mapGet idx.by_partial_hash h) else c0
    | none => c0
  let c2 := match record.size with
    | some size =>
      let afterExact := setUnion c1 (mapGet idx.by_size_exact size)
      let bucket := Int.fdiv size idx.size_bucket_bytes
      setUnion (setUnion (setUnion afterExact
        (mapGet idx.by_size_bucket (bucket - 1)))
        (mapGet idx.by_size_bucket bucket))
        (mapGet idx.by_size_bucket (bucket + 1))
    | none => c1
  let c3 := match record.resolution with
    | some r => if 0 < r then setUnion c2 (mapGet idx.by_resolution r) else c2
    | none => c2
  match record.normalized_name with
  | some n => if n ≠ "" then setUnion c3 (mapGet idx.by_name n) else c3
  | none => c3

/-- `DeduplicationIndex.find_best_match`: fold over the candidate ids,
skipping missing records and the record whose `src_path` equals the query's
`src_path`, keeping the strictly best score. -/
def DeduplicationIndex.findBestMatch (idx : DeduplicationIndex)
    (record : FeatureRecord) : ℚ × Option FeatureRecord :=
  (idx.gatherCandidateIds record).foldl
    (fun best candidateId =>
      match assocFind idx.records candidateId with
      | none => best
      | some candidate =>
        if candidate.src_path = record.src_path then best
        else
          let score := calculateSimilarity record candidate
          if best.1 < score then (score, some candidate) else best)
    (0, none)

/-! ## Hash strategies (src/fast_hash.py)

A file is its byte content (`List ℕ`); `os.path.getsize` is its length.
A digest is modelled by the byte stream fed to the SHA-256 hasher: two
digests are equal iff these streams are equal. -/

/-- The byte stream hashed by `compute_smart_hash`.  For
`file_size <= max_bytes` the whole content is hashed; otherwise the
beginning `mm[:chunk_size]`, the middle `mm[mid_start:mid_start+chunk_size]`
when `file_size > chunk_size * 6`, and the end `mm[-chunk_size:]` when
`file_size > chunk_size * 2`.  Note the Python slice `mm[-chunk_size:]` is
the whole buffer when `chunk_size = 0` (i.e. `max_bytes < 3`). -/
def smartHashData (file : List ℕ) (maxBytes : ℕ) : List ℕ :=
  let fileSize := file.length
  if fileSize ≤ maxBytes then file
  else
    let chunkSize := maxBytes / 3
    let beginPart := file.take chunkSize
    let midPart :=
      if chunkSize * 6 < fileSize then
        let midStart := fileSize / 2 - chunkSize / 2
        (file.drop midStart).take chunkSize
      else []
    let endPart :=
      if chunkSize * 2 < fileSize then
        if chunkSize = 0 then file else file.drop (fileSize - chunkSize)
      else []
    beginPart ++ midPart ++ endPart

/-- Modelled from the spec (claim C3's reading of `sampledHash`): with
`third = maxBytes div 3`, hash bytes `[0, third)`; then, only if
`size > 6*third`, the middle third centered at `size/2`; then, only if
`size > 2*third`, the last third `[size-third, size)`. -/
def specSampledHashData (file : List ℕ) (maxBytes : ℕ) : List ℕ :=
  let fileSize := file.length
  if fileSize ≤ maxBytes then file
  else
    let third := maxBytes / 3
    (file.take third) ++
      (if 6 * third < fileSize then
        (file.drop (fileSize / 2 - third / 2)).take third
      else []) ++
      (if 2 * third < fileSize then
        (file.drop (fileSize - third)).take third
      else [])

/-- The byte streams hashed by `compute_progressive_hash`, one per produced
stage key: the running `data_read` is extended by `f.read(max_bytes -
len(data_read))` (all remaining bytes when the argument is negative, which
cannot happen for increasing stages), or by the whole remainder on the
final, breaking stage with `file_size <= max_bytes`. -/
def progressiveStages (file : List ℕ) : List ℕ → List ℕ → List (ℕ × List ℕ)
  | [], _ => []
  | maxBytes :: stages, dataRead =>
    if file.length ≤ maxBytes then
      [(maxBytes, dataRead ++ file.drop dataRead.length)]
    else
      let remaining := file.drop dataRead.length
      let chunk := if dataRead.length ≤ maxBytes
        then remaining.take (maxBytes - dataRead.length) else remaining
      (maxBytes, dataRead ++ chunk) :: progressiveStages file stages (dataRead ++ chunk)

/-- `compute_progressive_hash(filepath, stages)` with the default stages. -/
def progressiveHashData (file : List ℕ) (stages : List ℕ) : List (ℕ × List ℕ) :=
  progressiveStages file stages []

/-- The default `stages = [1024, 8192, 65536]`. -/
def defaultStages : List ℕ := [1024, 8192, 65536]

/-! ## FastHashCache (src/fast_hash.py)

`self.cache` and `self.access_count` are insertion-ordered Python dicts
keyed by `(filepath, st_size, st_mtime)`.  `get_hash` is modelled as a
function of the stat result (`size`, `mtime`) and of the value the hash
strategy would return for the file (`hashResult`); the boolean in the
result records whether the strategy was invoked. -/

/-- A cache key `(filepath, st_size, st_mtime)`. -/
abbrev CacheKey : Type := String × ℤ × ℚ

structure FastHashCache where
  cache : List (CacheKey × String)
  max_entries : ℕ
  access_count : List (CacheKey × ℕ)

/-- `self.access_count[k] = self.access_count.get(k, 0) + 1` on an
insertion-ordered dict: updates in place, or appends with count 1. -/
def bumpCount (l : List (CacheKey × ℕ)) (key : CacheKey) : List (CacheKey × ℕ) :=
  match l with
  | [] => [(key, 1)]
  | (k, c) :: rest => if k = key then (k, c + 1) :: rest else (k, c) :: bumpCount rest key

/-- Scan for `min(..., key=lambda x: x[1])`: keeps the earliest item on
ties, replacing only on a strictly smaller count. -/
def minCountKeyGo (bestK : CacheKey) (bestC : ℕ) : List (CacheKey × ℕ) → CacheKey
  | [] => bestK
  | (k, c) :: rest =>
    if c < bestC then minCountKeyGo k c rest else minCountKeyGo bestK bestC rest

/-- `min(self.access_count.items(), key=lambda x: x[1])[0]`: the first key
attaining the minimal count; `none` on an empty dict (where Python `min`
raises `ValueError`). -/
def minCountKey : List (CacheKey × ℕ) → Option CacheKey
  | [] => none
  | (k, c) :: rest => some (minCountKeyGo k c rest)

/-- `FastHashCache.get_hash`.  On a hit, bump the access count and return
the cached value without invoking the strategy.  On a miss, invoke the
strategy; a `None` result is returned uncached.  A non-`None` result is
stored, evicting the lowest-count entry first when the cache is at
capacity; if the eviction `min` raises (`access_count` empty, only possible
with `max_entries = 0` and an empty cache), the enclosing `except` returns
`None` with the state unchanged. -/
def FastHashCache.getHash (c : FastHashCache) (path : String) (size : ℤ) (mtime : ℚ)
    (hashResult : Option String) : Option String × FastHashCache × Bool :=
  let key : CacheKey := (path, size, mtime)
  match assocFind c.cache key with
  | some v => (some v, { c with access_count := bumpCount c.access_count key }, false)
  | none =>
    match hashResult with
    | none => (none, c, true)
    | some h =>
      if c.max_entries ≤ c.cache.length then
        match minCountKey c.access_count with
        | none => (none, c, true)
        | some lru =>
          (some h,
            { c with
              cache := (c.cache.filter (fun e => e.1 ≠ lru)) ++ [(key, h)]
              access_count :=
                (c.access_count.filter (fun e => e.1 ≠ lru)) ++ [(key, 1)] },
            true)
      else
        (some h,
          { c with
            cache := c.cache ++ [(key, h)]
            access_count := c.access_count ++ [(key, 1)] },
          true)


@[simp] theorem assocFind_nil {α β : Type} [DecidableEq α] (key : α) :
    assocFind ([] : List (α × β)) key = none := rfl

@[simp] theorem assocFind_cons {α β : Type} [DecidableEq α] (k : α) (v : β)
    (rest : List (α × β)) (key : α) :
    assocFind ((k, v) :: rest) key = if k = key then some v else assocFind rest key := rfl

/-! ## Claim C2: constructor validation

`DeduplicationIndex.__init__` performs no validation at all: the claim that
bad configuration is rejected at construction time is false. -/

/-- C2 (counterexample): constructing an index with a strict threshold of
`-5`, a log threshold of `200` (both outside `[0,100]`) and a negative
bucket width of `-4096` succeeds: it produces a fully formed empty index
that stores the out-of-range thresholds unchanged and silently clamps the
bucket width up to `1024`, rather than failing. -/
theorem init_accepts_bad_config :
    (DeduplicationIndex.init (-5) 200 1024 (-4096)).strict_threshold = -5 ∧
    (DeduplicationIndex.init (-5) 200 1024 (-4096)).log_threshold = 200 ∧
    (DeduplicationIndex.init (-5) 200 1024 (-4096)).size_bucket_bytes = 1024 ∧
    (DeduplicationIndex.init (-5) 200 1024 (-4096)).records = [] ∧
    (DeduplicationIndex.init (-5) 200 1024 (-4096)).next_id = 1 :=
  ⟨rfl, rfl, by decide, rfl, rfl⟩

/-- C2 (amended): the constructor performs no validation: any thresholds
(including values outside `[0,100]`) are stored exactly as given, any bucket
width (including negative ones) is clamped from below to
`max(1024, size_bucket_bytes)`, and construction always yields an empty
index. -/
theorem init_stores_config_without_validation
    (strict log : ℚ) (partialBytes bucketBytes : ℤ) :
    (DeduplicationIndex.init strict log partialBytes bucketBytes).strict_threshold
        = strict ∧
    (DeduplicationIndex.init strict log partialBytes bucketBytes).log_threshold = log ∧
    (DeduplicationIndex.init strict log partialBytes bucketBytes).size_bucket_bytes
        = max 1024 bucketBytes ∧
    1024 ≤ (DeduplicationIndex.init strict log partialBytes bucketBytes).size_bucket_bytes ∧
    (DeduplicationIndex.init strict log partialBytes bucketBytes).records = [] :=
  ⟨rfl, rfl, rfl, le_max_left _ _, rfl⟩

/-! ## Claim C3: compute_smart_hash sampling

For `maxBytes ≥ 3` (`third ≥ 1`) the code hashes exactly the claimed
segments.  For `maxBytes < 3` the claim fails: `chunk_size = 0` makes the
final slice `mm[-0:]` the *entire* buffer, not the empty interval
`[size-0, size)`. -/

/-- C3 (counterexample): for a 2-byte file and a sample budget of 1 byte
(so `third = 0`), the code hashes the whole content (via `mm[-0:]`) while
the claimed segment list is empty; the hashed byte streams differ. -/
theorem smart_hash_differs_from_claim_for_tiny_budget :
    smartHashData [7, 9] 1 = [7, 9] ∧ specSampledHashData [7, 9] 1 = [] ∧
    smartHashData [7, 9] 1 ≠ specSampledHashData [7, 9] 1 := by
  refine ⟨by decide, by decide, by decide⟩

/-- C3 (amended): for every file and every sample budget `maxBytes ≥ 3`
(so that `third = maxBytes div 3 ≥ 1`; all budgets used by the program are
1024, 8192 or 65536), the byte stream hashed by `compute_smart_hash` is
exactly the claimed one: the whole content when `size ≤ maxBytes`, else the
concatenation of `[0, third)`, the middle third centered at `size/2` (only
when `size > 6*third`), and the last third `[size-third, size)` (only when
`size > 2*third`). -/
theorem smart_hash_matches_claim (file : List ℕ) (maxBytes : ℕ) (h3 : 3 ≤ maxBytes) :
    smartHashData file maxBytes = specSampledHashData file maxBytes := by
  have hc : 1 ≤ maxBytes / 3 := (Nat.one_le_div_iff (by norm_num)).2 h3
  unfold smartHashData specSampledHashData
  by_cases hle : file.length ≤ maxBytes
  · simp [hle]
  · have hcn : maxBytes / 3 ≠ 0 := by omega
    have hlen : maxBytes / 3 ≤ file.length := by
      have := Nat.div_le_self maxBytes 3
      omega
    simp only [hle, if_false, hcn, Nat.mul_comm (maxBytes / 3)]
    congr 1
    by_cases h2 : 2 * (maxBytes / 3) < file.length
    · simp only [h2, if_true]
      rw [List.take_of_length_le]
      rw [List.length_drop]
      omega
    · simp [h2]

/-- Witness for `smart_hash_matches_claim` at a concrete input. -/
theorem smart_hash_matches_claim_witness :
    3 ≤ 3 ∧ smartHashData [1, 2, 3, 4, 5] 3 = specSampledHashData [1, 2, 3, 4, 5] 3 :=
  ⟨by decide, smart_hash_matches_claim [1, 2, 3, 4, 5] 3 (by decide)⟩

/-! ## Claim C5: three-bucket size registration -/

theorem mem_setAdd_self (s : List ℕ) (x : ℕ) : x ∈ setAdd s x := by
  unfold setAdd
  by_cases h : x ∈ s <;> simp [h]

theorem mem_setAdd_of_mem {s : List ℕ} {x : ℕ} (y : ℕ) (h : x ∈ s) : x ∈ setAdd s y := by
  unfold setAdd
  by_cases hy : y ∈ s <;> simp [hy, h]

theorem mapGet_mapAdd {κ : Type} [DecidableEq κ]
    (m : List (κ × List ℕ)) (k' : κ) (y : ℕ) (k : κ) :
    mapGet (mapAdd m k' y) k = if k' = k then setAdd (mapGet m k') y else mapGet m k := by
  induction m with
  | nil => by_cases h : k' = k <;> simp [mapAdd, mapGet, h]
  | cons e rest ih =>
    obtain ⟨k0, s⟩ := e
    by_cases h0 : k0 = k'
    · subst h0
      by_cases hk : k0 = k
      · subst hk
        simp [mapAdd, mapGet]
      · simp [mapAdd, mapGet, hk]
    · by_cases hk : k0 = k
      · subst hk
        have hne : ¬ k' = k0 := fun h => h0 h.symm
        simp [mapAdd, mapGet, h0, hne]
      · by_cases h1 : k' = k
        · subst h1
          simp only [mapAdd, if_neg h0, mapGet, assocFind_cons, if_neg hk]
          simpa [mapGet, h0, hk] using ih
        · simp only [mapAdd, if_neg h0, mapGet, assocFind_cons, if_neg hk]
          simpa [mapGet, h0, hk, h1] using ih

theorem mem_mapGet_mapAdd_self {κ : Type} [DecidableEq κ]
    (m : List (κ × List ℕ)) (k : κ) (x : ℕ) : x ∈ mapGet (mapAdd m k x) k := by
  rw [mapGet_mapAdd, if_pos rfl]
  exact mem_setAdd_self _ _

theorem mem_mapGet_mapAdd_of_mem {κ : Type} [DecidableEq κ]
    {m : List (κ × List ℕ)} {k : κ} {x : ℕ} (k' : κ) (y : ℕ)
    (h : x ∈ mapGet m k) : x ∈ mapGet (mapAdd m k' y) k := by
  rw [mapGet_mapAdd]
  by_cases hk : k' = k
  · subst hk
    rw [if_pos rfl]
    exact mem_setAdd_of_mem y h
  · rwa [if_neg hk]

/-- C5: `add_record` registers a record with an integer size under its own
size bucket and both adjacent buckets; consequently, with a bucket width of
65536, an indexed record of size 65536 (buckets 0,1,2) and a query of size
131072 (gathering buckets 1,2,3) see each other as size-bucket candidates,
in both directions. -/
theorem add_record_registers_three_buckets
    (idx : DeduplicationIndex) (record : FeatureRecord) (size : ℤ)
    (hsize : record.size = some size) :
    (∀ neighbor,
      (neighbor = Int.fdiv size idx.size_bucket_bytes - 1 ∨
       neighbor = Int.fdiv size idx.size_bucket_bytes ∨
       neighbor = Int.fdiv size idx.size_bucket_bytes + 1) →
      idx.next_id ∈ mapGet (idx.addRecord record).by_size_bucket neighbor) ∧
    (1 ∈ ((DeduplicationIndex.init 90 70 1024 65536).addRecord
        { src_path := some "/photos/existing.jpg", size := some 65536 }).gatherCandidateIds
        { src_path := some "/incoming/new.jpg", size := some 131072 }) ∧
    (1 ∈ ((DeduplicationIndex.init 90 70 1024 65536).addRecord
        { src_path := some "/photos/existing.jpg", size := some 131072 }).gatherCandidateIds
        { src_path := some "/incoming/new.jpg", size := some 65536 }) := by
  refine ⟨?_, by with_unfolding_all decide, by with_unfolding_all decide⟩
  intro neighbor hn
  unfold DeduplicationIndex.addRecord
  simp only [hsize]
  rcases hn with h | h | h <;> subst h
  · exact mem_mapGet_mapAdd_of_mem _ _ (mem_mapGet_mapAdd_of_mem _ _
      (mem_mapGet_mapAdd_self _ _ _))
  · exact mem_mapGet_mapAdd_of_mem _ _ (mem_mapGet_mapAdd_self _ _ _)
  · exact mem_mapGet_mapAdd_self _ _ _

/-- Witness for `add_record_registers_three_buckets` at a concrete state. -/
theorem add_record_registers_three_buckets_witness :
    ({ src_path := some "/photos/existing.jpg", size := some 65536 }
        : FeatureRecord).size = some 65536 ∧
    1 ∈ mapGet (((DeduplicationIndex.init 90 70 1024 65536).addRecord
      { src_path := some "/photos/existing.jpg", size := some 65536 }).by_size_bucket) 2 :=
  ⟨rfl,
    (add_record_registers_three_buckets (DeduplicationIndex.init 90 70 1024 65536)
      { src_path := some "/photos/existing.jpg", size := some 65536 } 65536 rfl).1
      2 (by with_unfolding_all decide)⟩

/-! ## Claim C6: find_best_match never returns a self-match -/

/-- C6: for every index state and every query record, `find_best_match`
never returns a match whose `src_path` equals the query's own `src_path`,
regardless of which inverted maps produced the candidate ids (the returned
match's source path, when a match exists, differs from the query's). -/
theorem find_best_match_excludes_self
    (idx : DeduplicationIndex) (record : FeatureRecord) (p : Option String)
    (h : ((idx.findBestMatch record).2).map FeatureRecord.src_path = some p) :
    p ≠ record.src_path := by
  unfold DeduplicationIndex.findBestMatch at h
  generalize idx.gatherCandidateIds record = ids at h
  suffices hgen : ∀ (l : List ℕ) (acc : ℚ × Option FeatureRecord),
      (∀ p', acc.2.map FeatureRecord.src_path = some p' → p' ≠ record.src_path) →
      (∀ p', ((l.foldl (fun best candidateId =>
        match assocFind idx.records candidateId with
        | none => best
        | some candidate =>
          if candidate.src_path = record.src_path then best
          else
            let score := calculateSimilarity record candidate
            if best.1 < score then (score, some candidate) else best) acc).2).map
          FeatureRecord.src_path = some p' →
        p' ≠ record.src_path) by
    exact hgen ids (0, none) (by simp) p h
  intro l
  induction l with
  | nil => intro acc hacc p' h'; exact hacc p' h'
  | cons c rest ih =>
    intro acc hacc p' h'
    simp only [List.foldl_cons] at h'
    refine ih _ ?_ p' h'
    rcases hfind : assocFind idx.records c with _ | cand
    · simpa [hfind] using hacc
    · simp only [hfind]
      by_cases hsp : cand.src_path = record.src_path
      · simpa [hsp] using hacc
      · simp only [hsp, if_false]
        by_cases hlt : acc.1 < calculateSimilarity record cand
        · simp only [hlt, if_true]
          intro p'' hp''
          obtain rfl : cand.src_path = p'' := by simpa using hp''
          exact hsp
        · simpa [hlt] using hacc

/-- Witness for `find_best_match_excludes_self`: a one-record index where
the query does find that record as its best match, and the returned source
path differs from the query's. -/
theorem find_best_match_excludes_self_witness :
    ((((DeduplicationIndex.init 90 70 1024 65536).addRecord
        { src_path := some "/photos/a.jpg", size := some 4096,
          mtime := some 0 }).findBestMatch
      { src_path := some "/incoming/b.jpg", size := some 4096, mtime := some 0 }).2).map
        FeatureRecord.src_path = some (some "/photos/a.jpg") ∧
    some "/photos/a.jpg" ≠
      ({ src_path := some "/incoming/b.jpg", size := some 4096, mtime := some 0 }
        : FeatureRecord).src_path :=
  ⟨by with_unfolding_all decide,
    find_best_match_excludes_self
      ((DeduplicationIndex.init 90 70 1024 65536).addRecord
        { src_path := some "/photos/a.jpg", size := some 4096, mtime := some 0 })
      { src_path := some "/incoming/b.jpg", size := some 4096, mtime := some 0 }
      (some "/photos/a.jpg") (by with_unfolding_all decide)⟩

/-! ## Claim C7: progressive hash digests are cumulative prefixes -/

theorem take_min_length {α : Type} (l : List α) (s : ℕ) :
    l.take (min s l.length) = l.take s := by
  rcases le_total s l.length with h | h
  · rw [min_eq_left h]
  · rw [min_eq_right h, List.take_length, List.take_of_length_le h]

/-- One non-final stage of `compute_progressive_hash`. -/
theorem progressiveStages_step (file : List ℕ) (m : ℕ) (rest : List ℕ)
    (dataRead : List ℕ) (h : ¬ file.length ≤ m) (hd : dataRead.length ≤ m) :
    progressiveStages file (m :: rest) dataRead =
      (m, dataRead ++ (file.drop dataRead.length).take (m - dataRead.length)) ::
        progressiveStages file rest
          (dataRead ++ (file.drop dataRead.length).take (m - dataRead.length)) := by
  simp [progressiveStages, h, hd]

/-- The final (breaking) stage of `compute_progressive_hash`. -/
theorem progressiveStages_break (file : List ℕ) (m : ℕ) (rest : List ℕ)
    (dataRead : List ℕ) (h : file.length ≤ m) :
    progressiveStages file (m :: rest) dataRead =
      [(m, dataRead ++ file.drop dataRead.length)] := by
  simp [progressiveStages, h]

/-- C7: with the default stages `[1024, 8192, 65536]`,
`compute_progressive_hash` feeds the hasher, at every produced stage, the
cumulative prefix of the file read so far — the first
`min(stage, fileSize)` bytes — and produces one digest per stage up to and
including the first stage that covers the whole file, none afterwards. -/
theorem progressive_hash_cumulative_prefixes (file : List ℕ) :
    (∀ s d, (s, d) ∈ progressiveHashData file defaultStages →
      d = file.take (min s file.length)) ∧
    ((progressiveHashData file defaultStages).map Prod.fst =
      if file.length ≤ 1024 then [1024]
      else if file.length ≤ 8192 then [1024, 8192]
      else [1024, 8192, 65536]) := by
  have htake : ∀ p q : ℕ, p ≤ q →
      file.take p ++ (file.drop p).take (q - p) = file.take q := by
    intro p q hpq
    rw [← List.take_add]
    congr 1
    omega
  have hfull : ∀ p : ℕ, file.take p ++ file.drop p = file := fun p =>
    List.take_append_drop p file
  have hres : progressiveHashData file defaultStages =
      if file.length ≤ 1024 then [(1024, file)]
      else if file.length ≤ 8192 then [(1024, file.take 1024), (8192, file)]
      else if file.length ≤ 65536 then
        [(1024, file.take 1024), (8192, file.take 8192), (65536, file)]
      else
        [(1024, file.take 1024), (8192, file.take 8192), (65536, file.take 65536)] := by
    unfold progressiveHashData defaultStages
    by_cases h1 : file.length ≤ 1024
    · rw [progressiveStages_break file 1024 _ [] h1]
      simp [h1]
    · have e1 : ([] : List ℕ) ++ (file.drop ([] : List ℕ).length).take (1024 - ([] : List ℕ).length)
          = file.take 1024 := by simp
      rw [progressiveStages_step file 1024 _ [] h1 (by simp), e1]
      have hl1 : (file.take 1024).length = 1024 := by
        rw [List.length_take]
        omega
      by_cases h2 : file.length ≤ 8192
      · rw [progressiveStages_break file 8192 _ _ h2, hl1, hfull]
        simp [h1, h2]
      · have e2 : file.take 1024 ++ (file.drop (file.take 1024).length).take
            (8192 - (file.take 1024).length) = file.take 8192 := by
          rw [hl1]
          exact htake 1024 8192 (by norm_num)
        rw [progressiveStages_step file 8192 _ _ h2 (by rw [hl1]; norm_num), e2]
        have hl2 : (file.take 8192).length = 8192 := by
          rw [List.length_take]
          omega
        by_cases h3 : file.length ≤ 65536
        · rw [progressiveStages_break file 65536 _ _ h3, hl2, hfull]
          simp [h1, h2, h3]
        · have e3 : file.take 8192 ++ (file.drop (file.take 8192).length).take
              (65536 - (file.take 8192).length) = file.take 65536 := by
            rw [hl2]
            exact htake 8192 65536 (by norm_num)
          rw [progressiveStages_step file 65536 _ _ h3 (by rw [hl2]; norm_num), e3]
          simp [progressiveStages, h1, h2, h3]
  constructor
  · intro s d hm
    rw [hres] at hm
    split_ifs at hm with h1 h2 h3 <;>
      simp only [List.mem_cons, List.mem_singleton, List.not_mem_nil, or_false,
        Prod.mk.injEq] at hm
    · obtain ⟨rfl, rfl⟩ := hm
      rw [take_min_length, List.take_of_length_le h1]
    · rcases hm with ⟨rfl, rfl⟩ | ⟨rfl, rfl⟩
      · rw [take_min_length]
      · rw [take_min_length, List.take_of_length_le h2]
    · rcases hm with ⟨rfl, rfl⟩ | ⟨rfl, rfl⟩ | ⟨rfl, rfl⟩
      · rw [take_min_length]
      · rw [take_min_length]
      · rw [take_min_length, List.take_of_length_le h3]
    · rcases hm with ⟨rfl, rfl⟩ | ⟨rfl, rfl⟩ | ⟨rfl, rfl⟩ <;> rw [take_min_length]
  · rw [hres]
    split_ifs with h1 h2 h3 <;> simp

/-- Witness for `progressive_hash_cumulative_prefixes` at a concrete 3-byte
file: the only digest is for stage 1024 and covers the whole file. -/
theorem progressive_hash_cumulative_prefixes_witness :
    (1024, [5, 6, 7]) ∈ progressiveHashData [5, 6, 7] defaultStages ∧
    ([5, 6, 7] : List ℕ) = [5, 6, 7].take (min 1024 ([5, 6, 7] : List ℕ).length) :=
  ⟨by decide,
    (progressive_hash_cumulative_prefixes [5, 6, 7]).1 1024 [5, 6, 7] (by decide)⟩

/-! ## Claims C8 and C9: fingerprint cache -/

theorem assocFind_append_of_none {α β : Type} [DecidableEq α]
    {l1 : List (α × β)} (l2 : List (α × β)) {key : α}
    (h : assocFind l1 key = none) : assocFind (l1 ++ l2) key = assocFind l2 key := by
  induction l1 with
  | nil => simp
  | cons e rest ih =>
    obtain ⟨k, v⟩ := e
    by_cases hk : k = key
    · simp [hk] at h
    · simp only [assocFind_cons, if_neg hk] at h
      simpa [hk] using ih h

theorem assocFind_filter_of_none {α β : Type} [DecidableEq α]
    {l : List (α × β)} (p : α × β → Bool) {key : α}
    (h : assocFind l key = none) : assocFind (l.filter p) key = none := by
  induction l with
  | nil => simp
  | cons e rest ih =>
    obtain ⟨k, v⟩ := e
    by_cases hk : k = key
    · simp [hk] at h
    · simp only [assocFind_cons, if_neg hk] at h
      by_cases hp : p (k, v) <;> simp [List.filter_cons, hp, hk, ih h]

/-- C8: starting from any cache state in which the key
`(path, size, mtime)` is absent (and whose dicts are in sync with a
positive capacity, as every reachable state is): (a) two successive
`get_hash` calls with that key invoke the strategy exactly once — the
first invokes it and returns its value, the second is a pure cache hit;
(b) if the file's size changes between the calls, the second call is a
miss and invokes the strategy again; (c) a strategy returning no
fingerprint leaves the cache unchanged and caches nothing. -/
theorem cache_computes_once_and_misses_on_size_change
    (c : FastHashCache) (path : String) (size : ℤ) (mtime : ℚ)
    (hsync : c.access_count.map Prod.fst = c.cache.map Prod.fst)
    (hmax : 0 < c.max_entries)
    (hfresh : assocFind c.cache (path, size, mtime) = none) :
    (∀ (h : String) (hr2 : Option String),
      (c.getHash path size mtime (some h)).2.2 = true ∧
      (c.getHash path size mtime (some h)).1 = some h ∧
      (((c.getHash path size mtime (some h)).2.1).getHash path size mtime hr2).2.2
        = false ∧
      (((c.getHash path size mtime (some h)).2.1).getHash path size mtime hr2).1
        = some h) ∧
    (∀ (h : String) (size2 : ℤ) (hr2 : Option String), size2 ≠ size →
      assocFind c.cache (path, size2, mtime) = none →
      (((c.getHash path size mtime (some h)).2.1).getHash path size2 mtime hr2).2.2
        = true) ∧
    ((c.getHash path size mtime none).1 = none ∧
      (c.getHash path size mtime none).2.1 = c) := by
  have hstep : ∀ h : String, ∃ tail1 : List (CacheKey × String),
      (c.getHash path size mtime (some h)).1 = some h ∧
      (c.getHash path size mtime (some h)).2.2 = true ∧
      ((c.getHash path size mtime (some h)).2.1).cache
        = tail1 ++ [(((path, size, mtime) : CacheKey), h)] ∧
      (∀ key2 : CacheKey, assocFind c.cache key2 = none →
        assocFind tail1 key2 = none) := by
    intro h
    by_cases hcap : c.max_entries ≤ c.cache.length
    · have hane : c.access_count ≠ [] := by
        intro he
        have : c.cache = [] := List.map_eq_nil_iff.1 (by rw [← hsync, he]; rfl)
        rw [this] at hcap
        simp at hcap
        omega
      obtain ⟨ea, restA, hA⟩ := List.exists_cons_of_ne_nil hane
      have hget : c.getHash path size mtime (some h) =
          (some h,
            ⟨c.cache.filter (fun e => e.1 ≠ minCountKeyGo ea.1 ea.2 restA) ++
              [(((path, size, mtime) : CacheKey), h)],
             c.max_entries,
             c.access_count.filter (fun e => e.1 ≠ minCountKeyGo ea.1 ea.2 restA) ++
              [(((path, size, mtime) : CacheKey), 1)]⟩,
            true) := by
        unfold FastHashCache.getHash
        simp only [hfresh]
        rw [if_pos hcap, hA]
        simp only [minCountKey]
      refine ⟨_, by rw [hget], by rw [hget], by rw [hget], ?_⟩
      intro key2 hnone
      exact assocFind_filter_of_none _ hnone
    · have hget : c.getHash path size mtime (some h) =
          (some h,
            ⟨c.cache ++ [(((path, size, mtime) : CacheKey), h)],
             c.max_entries,
             c.access_count ++ [(((path, size, mtime) : CacheKey), 1)]⟩,
            true) := by
        unfold FastHashCache.getHash
        simp only [hfresh]
        rw [if_neg hcap]
      exact ⟨c.cache, by rw [hget], by rw [hget], by rw [hget], fun key2 hnone => hnone⟩
  refine ⟨?_, ?_, ?_⟩
  · intro h hr2
    obtain ⟨tail1, h1, h2, h3, h4⟩ := hstep h
    set c1 := (c.getHash path size mtime (some h)).2.1 with hc1def
    have hfind : assocFind c1.cache ((path, size, mtime) : CacheKey) = some h := by
      rw [h3, assocFind_append_of_none _ (h4 _ hfresh)]
      simp
    refine ⟨h2, h1, ?_, ?_⟩ <;>
      · show _ = _
        unfold FastHashCache.getHash
        simp only [hfind]
  · intro h size2 hr2 hne hfresh2
    obtain ⟨tail1, h1, h2, h3, h4⟩ := hstep h
    set c1 := (c.getHash path size mtime (some h)).2.1 with hc1def
    have hfind : assocFind c1.cache ((path, size2, mtime) : CacheKey) = none := by
      rw [h3, assocFind_append_of_none _ (h4 _ hfresh2)]
      have : (((path, size, mtime) : CacheKey)) ≠ (path, size2, mtime) := by
        intro he
        exact hne (congrArg (fun k : CacheKey => k.2.1) he).symm
      simp [this]
    show (c1.getHash path size2 mtime hr2).2.2 = true
    unfold FastHashCache.getHash
    simp only [hfind]
    cases hr2 with
    | none => rfl
    | some h2 =>
      by_cases hcap : c1.max_entries ≤ c1.cache.length <;>
        simp only [hcap, if_true, if_false] <;>
        cases hmk : minCountKey c1.access_count <;>
        rfl
  · unfold FastHashCache.getHash
    simp [hfresh]

/-- Witness for `cache_computes_once_and_misses_on_size_change`: an empty
cache of capacity 10; the first lookup computes and stores, the second is
a hit. -/
theorem cache_computes_once_witness :
    (([] : List (CacheKey × ℕ)).map Prod.fst =
      ([] : List (CacheKey × String)).map Prod.fst) ∧ 0 < 10 ∧
    assocFind ([] : List (CacheKey × String)) ("/p/x.jpg", 100, 0) = none ∧
    ((FastHashCache.mk [] 10 []).getHash "/p/x.jpg" 100 0 (some "h1")).2.2 = true ∧
    ((((FastHashCache.mk [] 10 []).getHash "/p/x.jpg" 100 0
      (some "h1")).2.1).getHash "/p/x.jpg" 100 0 none).2.2 = false :=
  ⟨rfl, by decide, rfl,
    ((cache_computes_once_and_misses_on_size_change (FastHashCache.mk [] 10 [])
      "/p/x.jpg" 100 0 rfl (by decide) rfl).1 "h1" none).1,
    (((cache_computes_once_and_misses_on_size_change (FastHashCache.mk [] 10 [])
      "/p/x.jpg" 100 0 rfl (by decide) rfl).1 "h1" none).2.2).1⟩

theorem minCountKeyGo_of_lt (bestK : CacheKey) (bestC : ℕ)
    (l : List (CacheKey × ℕ)) (h : ∀ e ∈ l, bestC < e.2) :
    minCountKeyGo bestK bestC l = bestK := by
  induction l with
  | nil => rfl
  | cons e rest ih =>
    have he : bestC < e.2 := h e (List.mem_cons_self e rest)
    obtain ⟨k, cnt⟩ := e
    rw [minCountKeyGo, if_neg (by omega : ¬ cnt < bestC)]
    exact ih fun e hm => h e (List.mem_cons_of_mem _ hm)

/-- With strictly increasing access counts, the eviction scan returns the
first (least-accessed) key. -/
theorem minCountKey_of_strictly_increasing (l : List (CacheKey × ℕ))
    (hl : l ≠ []) (hinc : (l.map Prod.snd).Chain' (· < ·)) :
    minCountKey l = some (l.head hl).1 := by
  obtain ⟨e, rest, rfl⟩ := List.exists_cons_of_ne_nil hl
  obtain ⟨k, cnt⟩ := e
  rw [minCountKey, minCountKeyGo_of_lt]
  · rfl
  · intro e hm
    have hpw : ((((k, cnt) :: rest).map Prod.snd)).Pairwise (· < ·) :=
      List.chain'_iff_pairwise.1 hinc
    rw [List.map_cons, List.pairwise_cons] at hpw
    exact hpw.1 e.2 (List.mem_map_of_mem Prod.snd hm)

theorem filter_ne_of_not_mem {α β : Type} [DecidableEq α]
    (l : List (α × β)) (k : α) (h : k ∉ l.map Prod.fst) :
    l.filter (fun e => e.1 ≠ k) = l := by
  rw [List.filter_eq_self]
  intro e hm
  simp only [ne_eq, decide_eq_true_eq]
  intro he
  exact h (he ▸ List.mem_map_of_mem Prod.fst hm)

/-- C9: inserting a fresh key into a cache at capacity whose existing
access counts are strictly increasing (in dict order) evicts exactly the
single least-accessed entry — the first one — keeping every other key plus
the new key (with access count 1). -/
theorem cache_evicts_single_lowest_count
    (c : FastHashCache) (path : String) (size : ℤ) (mtime : ℚ) (h : String)
    (hsync : c.access_count.map Prod.fst = c.cache.map Prod.fst)
    (hnodup : (c.cache.map Prod.fst).Nodup)
    (hcap : c.max_entries ≤ c.cache.length)
    (hmax : 0 < c.max_entries)
    (hfresh : assocFind c.cache (path, size, mtime) = none)
    (hinc : (c.access_count.map Prod.snd).Chain' (· < ·)) :
    ((c.getHash path size mtime (some h)).2.1).cache.map Prod.fst =
      (c.cache.map Prod.fst).tail ++ [(path, size, mtime)] ∧
    ((c.getHash path size mtime (some h)).2.1).access_count =
      c.access_count.tail ++ [((path, size, mtime), 1)] := by
  have hcne : c.cache ≠ [] := by
    intro he
    rw [he] at hcap
    simp at hcap
    omega
  have hane : c.access_count ≠ [] := by
    intro he
    apply hcne
    rw [he] at hsync
    exact List.map_eq_nil_iff.1 hsync.symm
  obtain ⟨ea, restA, hA⟩ := List.exists_cons_of_ne_nil hane
  obtain ⟨ec, restC, hC⟩ := List.exists_cons_of_ne_nil hcne
  have hlru : minCountKey c.access_count = some ea.1 := by
    rw [hA] at hinc ⊢
    simpa using minCountKey_of_strictly_increasing (ea :: restA) (by simp) hinc
  have hheads : ea.1 = ec.1 := by
    have hsync2 := hsync
    rw [hA, hC] at hsync2
    simp only [List.map_cons, List.cons.injEq] at hsync2
    exact hsync2.1
  have hCnodup : ec.1 ∉ restC.map Prod.fst := by
    rw [hC, List.map_cons, List.nodup_cons] at hnodup
    exact hnodup.1
  have hAnodup : ea.1 ∉ restA.map Prod.fst := by
    have hn : (c.access_count.map Prod.fst).Nodup := hsync ▸ hnodup
    rw [hA, List.map_cons, List.nodup_cons] at hn
    exact hn.1
  have hfiltC : c.cache.filter (fun e => e.1 ≠ ea.1) = restC := by
    rw [hC, List.filter_cons]
    have hd : (decide (ec.1 ≠ ea.1)) = false := by simp [hheads]
    rw [hd]
    simp only [Bool.false_eq_true, if_false]
    rw [hheads]
    exact filter_ne_of_not_mem restC ec.1 hCnodup
  have hfiltA : c.access_count.filter (fun e => e.1 ≠ ea.1) = restA := by
    rw [hA, List.filter_cons]
    have hd : (decide (ea.1 ≠ ea.1)) = false := by simp
    rw [hd]
    simp only [Bool.false_eq_true, if_false]
    exact filter_ne_of_not_mem restA ea.1 hAnodup
  have hget : c.getHash path size mtime (some h) =
      (some h,
        ⟨c.cache.filter (fun e => e.1 ≠ ea.1) ++ [(((path, size, mtime) : CacheKey), h)],
         c.max_entries,
         c.access_count.filter (fun e => e.1 ≠ ea.1) ++
          [(((path, size, mtime) : CacheKey), 1)]⟩,
      true) := by
    unfold FastHashCache.getHash
    simp only [hfresh]
    rw [if_pos hcap, hlru]
  rw [hget]
  constructor
  · rw [show (FastHashCache.mk
        (c.cache.filter (fun e => e.1 ≠ ea.1) ++ [(((path, size, mtime) : CacheKey), h)])
        c.max_entries
        (c.access_count.filter (fun e => e.1 ≠ ea.1) ++
          [(((path, size, mtime) : CacheKey), 1)])).cache
      = c.cache.filter (fun e => e.1 ≠ ea.1) ++ [(((path, size, mtime) : CacheKey), h)]
      from rfl]
    rw [hfiltC, hC]
    simp
  · rw [show (FastHashCache.mk
        (c.cache.filter (fun e => e.1 ≠ ea.1) ++ [(((path, size, mtime) : CacheKey), h)])
        c.max_entries
        (c.access_count.filter (fun e => e.1 ≠ ea.1) ++
          [(((path, size, mtime) : CacheKey), 1)])).access_count
      = c.access_count.filter (fun e => e.1 ≠ ea.1) ++
          [(((path, size, mtime) : CacheKey), 1)]
      from rfl]
    rw [hfiltA, hA]
    simp

/-- Witness for `cache_evicts_single_lowest_count`: a full two-entry cache
with counts 3 < 5; inserting a third key evicts the first. -/
theorem cache_evicts_single_lowest_count_witness :
    ((FastHashCache.mk [(("/a.jpg", 1, 0), "h1"), (("/b.jpg", 2, 0), "h2")] 2
        [(("/a.jpg", 1, 0), 3), (("/b.jpg", 2, 0), 5)]).getHash
      "/c.jpg" 3 0 (some "h3")).2.1.cache.map Prod.fst =
      [("/b.jpg", 2, 0), ("/c.jpg", 3, 0)] :=
  ((cache_evicts_single_lowest_count
    (FastHashCache.mk [(("/a.jpg", 1, 0), "h1"), (("/b.jpg", 2, 0), "h2")] 2
      [(("/a.jpg", 1, 0), 3), (("/b.jpg", 2, 0), 5)])
    "/c.jpg" 3 0 "h3" rfl (by decide) (by decide) (by decide) (by decide)
    (by simp [List.chain'_cons])).1).trans rfl

/-! ## Claim C4 groundwork: `seqRatio` of a sequence with itself is 1

For `SequenceMatcher(None, s, s)` the main loop of `find_longest_match`
only ever installs diagonal best blocks (an off-diagonal run of length `k`
ending at row `i` forces a diagonal run of length `≥ k` that is scanned no
later), and the extension loops then grow a diagonal block to the whole
string.  `diagRun s i` is the length of the diagonal run ending at `i`:
the number of consecutive positions up to `i` whose characters survive the
autojunk purge. -/

theorem mem_b2jAll {b : List Char} {c : Char} {j : ℕ} :
    j ∈ b2jAll b c ↔ j < b.length ∧ b.getD j c = c := by
  simp [b2jAll, List.mem_filter, List.mem_range]

theorem b2jPurged_eq_nil_or_all (b : List Char) (c : Char) :
    b2jPurged b c = [] ∨ b2jPurged b c = b2jAll b c := by
  unfold b2jPurged
  by_cases h : 200 ≤ b.length ∧ b.length / 100 + 1 < (b2jAll b c).length
  · simp [h]
  · simp [h]

theorem mem_b2jPurged {b : List Char} {c : Char} {j : ℕ} (h : j ∈ b2jPurged b c) :
    j < b.length ∧ b.getD j c = c := by
  rcases b2jPurged_eq_nil_or_all b c with he | he
  · rw [he] at h
    simp at h
  · rw [he] at h
    exact mem_b2jAll.1 h

theorem b2jPurged_pairwise (b : List Char) (c : Char) :
    (b2jPurged b c).Pairwise (· < ·) := by
  rcases b2jPurged_eq_nil_or_all b c with he | he <;> rw [he]
  · simp
  · exact (List.pairwise_lt_range b.length).filter _

theorem getD_congr_of_lt (s : List Char) {j : ℕ} (h : j < s.length) (c d : Char) :
    s.getD j c = s.getD j d := by
  simp [List.getD_eq_getElem?_getD, List.getElem?_eq_getElem h]

theorem self_mem_b2jPurged {s : List Char} {i : ℕ} (hi : i < s.length)
    (hne : b2jPurged s (s.getD i ' ') ≠ []) : i ∈ b2jPurged s (s.getD i ' ') := by
  rcases b2jPurged_eq_nil_or_all s (s.getD i ' ') with he | he
  · exact absurd he hne
  · rw [he, mem_b2jAll]
    exact ⟨hi, getD_congr_of_lt s hi _ _⟩

theorem char_eq_of_mem_b2jPurged {s : List Char} {i j : ℕ}
    (hj : j ∈ b2jPurged s (s.getD i ' ')) : s.getD j ' ' = s.getD i ' ' := by
  obtain ⟨hjn, hc⟩ := mem_b2jPurged hj
  rw [← hc]
  exact getD_congr_of_lt s hjn _ _

theorem b2jPurged_eq_of_mem {s : List Char} {i j : ℕ}
    (hj : j ∈ b2jPurged s (s.getD i ' ')) :
    b2jPurged s (s.getD j ' ') = b2jPurged s (s.getD i ' ') := by
  rw [char_eq_of_mem_b2jPurged hj]

theorem diagRun_le (s : List Char) (i : ℕ) : diagRun s i ≤ i + 1 := by
  induction i with
  | zero => unfold diagRun; split_ifs <;> omega
  | succ r ih => unfold diagRun; split_ifs <;> omega

theorem diagRun_of_ne_nil {s : List Char} {i : ℕ}
    (h : b2jPurged s (s.getD i ' ') ≠ []) :
    diagRun s i = (match i with | 0 => 1 | r + 1 => diagRun s r + 1) := by
  cases i with
  | zero => rw [diagRun, if_neg h]
  | succ r => rw [diagRun, if_neg h]

theorem diagRun_of_nil {s : List Char} {i : ℕ}
    (h : b2jPurged s (s.getD i ' ') = []) : diagRun s i = 0 := by
  cases i with
  | zero => rw [diagRun, if_pos h]
  | succ r => rw [diagRun, if_pos h]

theorem diagRun_pos_of_ne_nil {s : List Char} {i : ℕ}
    (h : b2jPurged s (s.getD i ' ') ≠ []) : 1 ≤ diagRun s i := by
  cases i with
  | zero => rw [diagRun, if_neg h]
  | succ r =>
    rw [diagRun, if_neg h]
    omega

/-- Row invariant for the main loop of `find_longest_match` on `a = b = s`
over the full window `[0, n)`: processing one row keeps the best block
diagonal, raises `bestsize` to at least the diagonal run at the row, and
fills `newj2len` with `kval`-values of positions of the row's character. -/
theorem flmInner_self (s : List Char) (n : ℕ) (hn : n = s.length) (i : ℕ) (hi : i < n)
    (J : List (ℕ × ℕ)) (jsFull : List ℕ) :
    ∀ js : List ℕ, js.Pairwise (· < ·) →
    (∀ j, j ∈ js → j < n ∧ j ∈ jsFull) →
    (∀ j, j ∈ js → kval J j ≤ diagRun s j ∧ kval J j ≤ diagRun s i) →
    (i ∈ js → kval J i = diagRun s i) →
    ∀ (cur : List (ℕ × ℕ)) (d bs : ℕ), d + bs ≤ n →
    (∀ t, t < i → diagRun s t ≤ bs) →
    (i ∈ js ∨ (diagRun s i ≤ bs ∧ assocFind cur i = some (kval J i) ∧ i ∉ js)) →
    (∀ j k, assocFind cur j = some k → j ∈ jsFull ∧ k = kval J j) →
    ∃ cur2 d2 bs2,
      flmInner 0 n i J js cur (d, d, bs) = (cur2, (d2, d2, bs2)) ∧
      d2 + bs2 ≤ n ∧ bs ≤ bs2 ∧
      (∀ t, t < i → diagRun s t ≤ bs2) ∧
      diagRun s i ≤ bs2 ∧ assocFind cur2 i = some (kval J i) ∧
      (∀ j k, assocFind cur2 j = some k → j ∈ jsFull ∧ k = kval J j) := by
  intro js
  induction js generalizing J with
  | nil =>
    intro _ _ _ _ cur d bs hd hbs hinv hcur
    rcases hinv with hmem | ⟨h1, h2, _⟩
    · simp at hmem
    · exact ⟨cur, d, bs, rfl, hd, le_refl bs, hbs, h1, h2, hcur⟩
  | cons j js ih =>
    intro hpw hns hkv hdiag cur d bs hd hbs hinv hcur
    have hjn : j < n := (hns j (List.mem_cons_self j js)).1
    have hstep : flmInner 0 n i J (j :: js) cur (d, d, bs) =
        flmInner 0 n i J js ((j, kval J j) :: cur)
          (if bs < kval J j then (i + 1 - kval J j, j + 1 - kval J j, kval J j)
            else (d, d, bs)) := by
      rw [flmInner]
      rw [if_neg (Nat.not_lt_zero j), if_neg (by omega : ¬ n ≤ j)]
    rw [hstep]
    have hpw2 : js.Pairwise (· < ·) := List.Pairwise.of_cons hpw
    have hlt : ∀ x ∈ js, j < x := (List.pairwise_cons.1 hpw).1
    have hns2 : ∀ x, x ∈ js → x < n ∧ x ∈ jsFull := fun x hx =>
      hns x (List.mem_cons_of_mem j hx)
    have hkv2 : ∀ x, x ∈ js → kval J x ≤ diagRun s x ∧ kval J x ≤ diagRun s i :=
      fun x hx => hkv x (List.mem_cons_of_mem j hx)
    have hkvj := hkv j (List.mem_cons_self j js)
    have hcur2 : ∀ x k, assocFind ((j, kval J j) :: cur) x = some k →
        x ∈ jsFull ∧ k = kval J x := by
      intro x k hfind
      rw [assocFind_cons] at hfind
      by_cases hjx : j = x
      · subst hjx
        obtain rfl : kval J j = k := by simpa using hfind
        exact ⟨(hns j (List.mem_cons_self j js)).2, rfl⟩
      · rw [if_neg hjx] at hfind
        exact hcur x k hfind
    rcases hinv with hmem | ⟨hRi, hfound, hnotin⟩
    · rcases List.mem_cons.1 hmem with rfl | hmemtl
      · -- the diagonal position of this row
        have hkvi : kval J i = diagRun s i := hdiag (List.mem_cons_self i js)
        have hnotin2 : i ∉ js := fun hx => lt_irrefl i (hlt i hx)
        by_cases hup : bs < kval J i
        · rw [if_pos hup]
          have hkle : kval J i ≤ i + 1 := hkvi ▸ diagRun_le s i
          obtain ⟨cur2, d2, bs2, heq, hdd, hle, hbs2, hRi2, hfound2, hcur3⟩ :=
            ih J hpw2 hns2 hkv2 (fun hx => absurd hx hnotin2)
              ((i, kval J i) :: cur) (i + 1 - kval J i) (kval J i) (by omega)
              (fun t ht => le_trans (hbs t ht) (le_of_lt hup))
              (Or.inr ⟨le_of_eq hkvi.symm, by simp, hnotin2⟩) hcur2
          exact ⟨cur2, d2, bs2, heq, hdd, le_trans (le_of_lt hup) hle,
            hbs2, hRi2, hfound2, hcur3⟩
        · rw [if_neg hup]
          refine ih J hpw2 hns2 hkv2 (fun hx => absurd hx hnotin2)
            ((i, kval J i) :: cur) d bs hd hbs
            (Or.inr ⟨hkvi ▸ Nat.le_of_not_lt hup, by simp, hnotin2⟩) hcur2
      · -- j is before the diagonal: j < i, so kval J j ≤ diagRun s j ≤ bs
        have hji : j < i := hlt i hmemtl
        have hnup : ¬ bs < kval J j :=
          Nat.not_lt.2 (le_trans hkvj.1 (hbs j hji))
        rw [if_neg hnup]
        refine ih J hpw2 hns2 hkv2 (fun hx => hdiag (List.mem_cons_of_mem j hx))
          ((j, kval J j) :: cur) d bs hd hbs (Or.inl hmemtl) hcur2
    · -- the diagonal has already been processed: kval J j ≤ diagRun s i ≤ bs
      have hnup : ¬ bs < kval J j := Nat.not_lt.2 (le_trans hkvj.2 hRi)
      rw [if_neg hnup]
      have hji : j ≠ i := fun he => hnotin (he ▸ List.mem_cons_self j js)
      have hnotin2 : i ∉ js := fun hx => hnotin (List.mem_cons_of_mem j hx)
      refine ih J hpw2 hns2 hkv2 (fun hx => absurd hx hnotin2)
        ((j, kval J j) :: cur) d bs hd hbs
        (Or.inr ⟨hRi, ?_, hnotin2⟩) hcur2
      rw [assocFind_cons, if_neg hji]
      exact hfound

/-- The value `k = j2len.get(j-1, 0) + 1` computed for a surviving position
`j` is bounded by the diagonal runs at `j` and at the current row, and is
exactly the diagonal run at the diagonal position, given the previous row's
`j2len` satisfies the row invariant. -/
theorem kval_bounds (s : List Char) (i : ℕ) (J : List (ℕ × ℕ))
    (hJ0 : i = 0 → J = [])
    (hJ1 : ∀ j k, assocFind J j = some k → 1 ≤ k ∧ k ≤ diagRun s j ∧
      ∀ r, i = r + 1 → k ≤ diagRun s r)
    (hJ2 : ∀ r, i = r + 1 → b2jPurged s (s.getD r ' ') ≠ [] →
      assocFind J r = some (diagRun s r))
    (hjs : b2jPurged s (s.getD i ' ') ≠ []) :
    (∀ j, j ∈ b2jPurged s (s.getD i ' ') →
      kval J j ≤ diagRun s j ∧ kval J j ≤ diagRun s i) ∧
    kval J i = diagRun s i := by
  cases i with
  | zero =>
    obtain rfl : J = [] := hJ0 rfl
    have hRi1 : 1 ≤ diagRun s 0 := diagRun_pos_of_ne_nil hjs
    constructor
    · intro j hj
      have hNPj : b2jPurged s (s.getD j ' ') ≠ [] := by
        rw [b2jPurged_eq_of_mem hj]
        exact hjs
      have hRj1 : 1 ≤ diagRun s j := diagRun_pos_of_ne_nil hNPj
      have hkj : kval [] j = 1 := by
        cases j with
        | zero => rw [kval, if_pos rfl]
        | succ p =>
          rw [kval, if_neg (Nat.succ_ne_zero p)]
          simp
      rw [hkj]
      exact ⟨hRj1, hRi1⟩
    · have hkj : kval ([] : List (ℕ × ℕ)) 0 = 1 := by rw [kval, if_pos rfl]
      rw [hkj, diagRun_of_ne_nil hjs]
  | succ r =>
    have hRi1 : 1 ≤ diagRun s (r + 1) := diagRun_pos_of_ne_nil hjs
    have hRsucc : diagRun s (r + 1) = diagRun s r + 1 := diagRun_of_ne_nil hjs
    constructor
    · intro j hj
      have hNPj : b2jPurged s (s.getD j ' ') ≠ [] := by
        rw [b2jPurged_eq_of_mem hj]
        exact hjs
      have hRj1 : 1 ≤ diagRun s j := diagRun_pos_of_ne_nil hNPj
      cases j with
      | zero =>
        rw [kval, if_pos rfl]
        exact ⟨hRj1, hRi1⟩
      | succ p =>
        have hRjsucc : diagRun s (p + 1) = diagRun s p + 1 := diagRun_of_ne_nil hNPj
        rw [kval, if_neg (Nat.succ_ne_zero p), Nat.add_sub_cancel]
        cases hfind : assocFind J p with
        | none =>
          refine ⟨by simp; omega, by simp; omega⟩
        | some k =>
          have h1 := (hJ1 p k hfind).2.1
          have h2 := (hJ1 p k hfind).2.2 r rfl
          simp only [Option.getD_some]
          omega
    · rw [kval, if_neg (Nat.succ_ne_zero r), Nat.add_sub_cancel]
      by_cases hNPr : b2jPurged s (s.getD r ' ') = []
      · have hfind : assocFind J r = none := by
          cases hfind : assocFind J r with
          | none => rfl
          | some k =>
            have h1 := (hJ1 r k hfind).1
            have h2 := (hJ1 r k hfind).2.1
            rw [diagRun_of_nil hNPr] at h2
            omega
        rw [hfind, Option.getD_none, hRsucc, diagRun_of_nil hNPr]
      · rw [hJ2 r rfl hNPr, Option.getD_some, hRsucc]

/-- Outer-loop invariant of `find_longest_match` for `a = b = s` on the
full window: the final best block is diagonal and stays inside the
string. -/
theorem flmRows_self (s : List Char) (n : ℕ) (hn : n = s.length) :
    ∀ (rows i : ℕ) (J : List (ℕ × ℕ)) (d bs : ℕ),
    i + rows = n →
    (i = 0 → J = []) →
    (∀ j k, assocFind J j = some k → 1 ≤ k ∧ k ≤ diagRun s j ∧
      ∀ r, i = r + 1 → k ≤ diagRun s r) →
    (∀ r, i = r + 1 → b2jPurged s (s.getD r ' ') ≠ [] →
      assocFind J r = some (diagRun s r)) →
    d + bs ≤ n →
    (∀ t, t < i → diagRun s t ≤ bs) →
    ∃ d2 bs2, flmRows s s 0 n i rows J (d, d, bs) = (d2, d2, bs2) ∧ d2 + bs2 ≤ n := by
  intro rows
  induction rows with
  | zero =>
    intro i J d bs _ _ _ _ hd _
    exact ⟨d, bs, rfl, hd⟩
  | succ rows ih =>
    intro i J d bs hin hJ0 hJ1 hJ2 hd hbs
    have hi : i < n := by omega
    by_cases hjs : b2jPurged s (s.getD i ' ') = []
    · have hstep : flmRows s s 0 n i (rows + 1) J (d, d, bs) =
          flmRows s s 0 n (i + 1) rows [] (d, d, bs) := by
        rw [flmRows, hjs]
        rfl
      rw [hstep]
      refine ih (i + 1) [] d bs (by omega) (fun h => rfl)
        (fun j k h => by simp at h) (fun r hr hne => ?_) hd
        (fun t ht => ?_)
      · obtain rfl : r = i := by omega
        exact absurd hjs hne
      · rcases Nat.lt_succ_iff_lt_or_eq.1 ht with ht2 | rfl
        · exact hbs t ht2
        · rw [diagRun_of_nil hjs]
          omega
    · obtain ⟨hkv, hF3⟩ := kval_bounds s i J hJ0 hJ1 hJ2 hjs
      obtain ⟨cur2, d2, bs2, heq, hdd, hble, hbs2, hRi2, hfound2, hcur3⟩ :=
        flmInner_self s n hn i hi J (b2jPurged s (s.getD i ' '))
          (b2jPurged s (s.getD i ' ')) (b2jPurged_pairwise s _)
          (fun j hj => ⟨hn ▸ (mem_b2jPurged hj).1, hj⟩)
          (fun j hj => hkv j hj) (fun _ => hF3) [] d bs hd hbs
          (Or.inl (self_mem_b2jPurged (hn ▸ hi) hjs))
          (fun j k h => by simp at h)
      have hstep : flmRows s s 0 n i (rows + 1) J (d, d, bs) =
          flmRows s s 0 n (i + 1) rows cur2 (d2, d2, bs2) := by
        rw [flmRows]
        have : flmInner 0 n i J (b2jPurged s (s.getD i ' ')) [] (d, d, bs)
            = (cur2, (d2, d2, bs2)) := heq
        rw [this]
      rw [hstep]
      refine ih (i + 1) cur2 d2 bs2 (by omega)
        (fun h => absurd h (Nat.succ_ne_zero i)) ?_ ?_ hdd ?_
      · intro j k h
        obtain ⟨hmem, rfl⟩ := hcur3 j k h
        refine ⟨Nat.le_add_left 1 _, (hkv j hmem).1, ?_⟩
        intro r hr
        obtain rfl : r = i := by omega
        exact (hkv j hmem).2
      · intro r hr hne
        obtain rfl : r = i := by omega
        rw [hfound2, hF3]
      · intro t ht
        rcases Nat.lt_succ_iff_lt_or_eq.1 ht with ht2 | rfl
        · exact hbs2 t ht2
        · exact hRi2

theorem extLo_self_diag (s : List Char) :
    ∀ (fuel d bs : ℕ), d ≤ fuel →
    extLo s s 0 0 fuel (d, d, bs) = (0, 0, bs + d) := by
  intro fuel
  induction fuel with
  | zero =>
    intro d bs hd
    obtain rfl : d = 0 := by omega
    rfl
  | succ f ih =>
    intro d bs hd
    cases d with
    | zero =>
      have hc : ¬ (0 < 0 ∧ 0 < 0 ∧ s.getD (0 - 1) ' ' ∉ bjunkNone ∧
          s.getD (0 - 1) ' ' = s.getD (0 - 1) ' ') := by
        rintro ⟨h0, _⟩
        exact Nat.lt_irrefl 0 h0
      rw [extLo, if_neg hc]
      simp
    | succ e =>
      rw [extLo, if_pos]
      · simp only [Nat.add_sub_cancel]
        rw [ih e (bs + 1) (by omega)]
        have he : bs + 1 + e = bs + (e + 1) := by omega
        rw [he]
      · refine ⟨Nat.succ_pos e, Nat.succ_pos e, List.not_mem_nil _, rfl⟩

theorem extHi_self_diag (s : List Char) (n : ℕ) :
    ∀ (fuel m : ℕ), m ≤ n → n ≤ m + fuel →
    extHi s s n n fuel (0, 0, m) = (0, 0, n) := by
  intro fuel
  induction fuel with
  | zero =>
    intro m h1 h2
    obtain rfl : m = n := by omega
    rfl
  | succ f ih =>
    intro m h1 h2
    by_cases hm : m < n
    · rw [extHi, if_pos]
      · exact ih (m + 1) (by omega) (by omega)
      · exact ⟨by omega, by omega, List.not_mem_nil _, rfl⟩
    · obtain rfl : m = n := by omega
      rw [extHi, if_neg]
      simp

theorem extLoJunk_noop (a b : List Char) (alo blo : ℕ) :
    ∀ (fuel : ℕ) (best : ℕ × ℕ × ℕ), extLoJunk a b alo blo fuel best = best := by
  intro fuel best
  obtain ⟨bi, bj, bs⟩ := best
  cases fuel with
  | zero => rfl
  | succ f =>
    rw [extLoJunk, if_neg]
    simp [bjunkNone]

theorem extHiJunk_noop (a b : List Char) (ahi bhi : ℕ) :
    ∀ (fuel : ℕ) (best : ℕ × ℕ × ℕ), extHiJunk a b ahi bhi fuel best = best := by
  intro fuel best
  obtain ⟨bi, bj, bs⟩ := best
  cases fuel with
  | zero => rfl
  | succ f =>
    rw [extHiJunk, if_neg]
    simp [bjunkNone]

/-- For `a = b = s` and the full window, `find_longest_match` returns the
whole string as one diagonal block. -/
theorem findLongestMatch_self (s : List Char) :
    findLongestMatch s s 0 s.length 0 s.length = (0, 0, s.length) := by
  obtain ⟨d2, bs2, hrows, hdb⟩ :=
    flmRows_self s s.length rfl s.length 0 [] 0 0 (by omega) (fun _ => rfl)
      (fun j k h => by simp at h) (fun r hr _ => absurd hr (by omega)) (by omega)
      (fun t ht => absurd ht (Nat.not_lt_zero t))
  have h2 : extLo s s 0 0 (d2, d2, bs2).1 (d2, d2, bs2) = (0, 0, bs2 + d2) :=
    extLo_self_diag s d2 d2 bs2 (le_refl d2)
  unfold findLongestMatch
  rw [Nat.sub_zero, hrows]
  simp only [h2, extHi_self_diag s s.length s.length (bs2 + d2) (by omega) (by omega),
    extLoJunk_noop, extHiJunk_noop]

/-- `SequenceMatcher(None, s, s).ratio() = 1.0` for every string `s`. -/
theorem seqRatio_self (a : List Char) : seqRatio a a = 1 := by
  unfold seqRatio
  by_cases h : a.length + a.length = 0
  · rw [if_pos h]
  · rw [if_neg h]
    have hn : 0 < a.length := by omega
    have hm : matchTotal a a (a.length + a.length) 0 a.length 0 a.length
        = a.length := by
      obtain ⟨f, hf⟩ : ∃ f, a.length + a.length = f + 1 :=
        ⟨a.length + a.length - 1, by omega⟩
      rw [hf, matchTotal, findLongestMatch_self]
      rw [if_neg (by omega : ¬ a.length = 0)]
      rw [if_neg (by omega : ¬ (0 < 0 ∧ 0 < 0)),
        if_neg (by omega : ¬ (0 + a.length < a.length ∧ 0 + a.length < a.length))]
      simp
    rw [hm]
    have hq : ((a.length : ℚ) + a.length) ≠ 0 := by
      have : (0 : ℚ) < a.length := by exact_mod_cast hn
      linarith
    field_simp
    ring

/-! ## Claim C4: capped, rounded weighted sum; identical pairs score 100.00 -/

theorem roundHalfEven_le_int {q : ℚ} {M : ℤ} (h : q ≤ M) : roundHalfEven q ≤ M := by
  have hfl : ⌊q⌋ ≤ M := by
    calc ⌊q⌋ ≤ ⌊(M : ℚ)⌋ := Int.floor_le_floor h
    _ = M := Int.floor_intCast M
  have hplus : 1/2 ≤ q - ⌊q⌋ → ⌊q⌋ + 1 ≤ M := by
    intro hr
    have h1 : (⌊q⌋ : ℚ) + 1/2 ≤ (M : ℚ) := by linarith
    have h2 : (⌊q⌋ : ℚ) < (M : ℚ) := by linarith
    have h3 : ⌊q⌋ < M := by exact_mod_cast h2
    omega
  unfold roundHalfEven
  split_ifs with h1 h2 h3
  · exact hfl
  · exact hplus (le_of_lt h2)
  · exact hfl
  · exact hplus (le_of_not_lt h1)

theorem round2_le_100 {q : ℚ} (h : q ≤ 100) : round2 q ≤ 100 := by
  unfold round2
  have h1 : q * 100 ≤ ((10000 : ℤ) : ℚ) := by push_cast; linarith
  have h2 : roundHalfEven (q * 100) ≤ 10000 := roundHalfEven_le_int h1
  rw [div_le_iff (by norm_num : (0 : ℚ) < 100)]
  have h3 : ((roundHalfEven (q * 100) : ℤ) : ℚ) ≤ ((10000 : ℤ) : ℚ) := by
    exact_mod_cast h2
  push_cast at h3 ⊢
  linarith

theorem round2_100 : round2 (100 : ℚ) = 100 := by with_unfolding_all decide

/-- C4: the similarity score is always the two-decimal rounding of the
weighted sum capped at 100 — hence at most 100 and an integer multiple of
1/100 — and a pair of byte-identical files whose remaining signals all
match (equal fingerprints, equal nonzero sizes, equal positive dimensions,
equal names, equal capture times, equal mtimes) scores exactly 100.00. -/
theorem similarity_capped_and_identical_scores_100 :
    (∀ l r : FeatureRecord, calculateSimilarity l r ≤ 100 ∧
      ∃ k : ℤ, calculateSimilarity l r = (k : ℚ) / 100) ∧
    (∀ (l r : FeatureRecord) (fp nm : String) (sz w ht : ℤ) (d m : ℚ),
      l.partial_hash = some fp → r.partial_hash = some fp →
      l.size = some sz → r.size = some sz → sz ≠ 0 →
      l.width = some w → r.width = some w → 0 < w →
      l.height = some ht → r.height = some ht → 0 < ht →
      l.file_name = some nm → r.file_name = some nm →
      l.date_taken = some d → r.date_taken = some d →
      l.mtime = some m → r.mtime = some m →
      calculateSimilarity l r = 100) := by
  constructor
  · intro l r
    exact ⟨round2_le_100 (min_le_right _ _),
      ⟨roundHalfEven (min (rawSimilarity l r) 100 * 100), rfl⟩⟩
  · intro l r fp nm sz w ht d m hlph hrph hls hrs hsz hlw hrw hw hlh hrh hh hln hrn
      hld hrd hlm hrm
    have h1 : partialHashScore l r = 45 := by
      unfold partialHashScore
      rw [hlph, hrph]
      simp
    have h2 : sizeScore l r = 20 := by
      unfold sizeScore
      rw [hls, hrs]
      simp [hsz]
    have h3 : resolutionScore l r = 15 := by
      unfold resolutionScore
      rw [hlw, hrw, hlh, hrh]
      simp [hw, hh]
    have h4 : filenameScore l r = 10 := by
      unfold filenameScore
      rw [hln, hrn]
      simp [seqRatio_self]
    have h5 : dateTakenScore l r = 5 := by
      unfold dateTakenScore
      rw [hld, hrd]
      simp
    have h6 : mtimeScore l r = 5 := by
      unfold mtimeScore
      rw [hlm, hrm]
      simp
    unfold calculateSimilarity rawSimilarity
    rw [h1, h2, h3, h4, h5, h6]
    have hsum : (45 : ℚ) + 20 + 15 + 10 + 5 + 5 = 100 := by norm_num
    rw [hsum, min_self, round2_100]

/-- Witness for `similarity_capped_and_identical_scores_100` on two feature
records of one identical photo file. -/
theorem similarity_identical_scores_100_witness :
    ({ src_path := some "/x/a.jpg", file_name := some "a.jpg", size := some 100,
        width := some 2, height := some 3, partial_hash := some "f",
        mtime := some 1, date_taken := some 2 } : FeatureRecord).partial_hash
        = some "f" ∧
    (100 : ℤ) ≠ 0 ∧
    calculateSimilarity
      { src_path := some "/x/a.jpg", file_name := some "a.jpg", size := some 100,
        width := some 2, height := some 3, partial_hash := some "f",
        mtime := some 1, date_taken := some 2 }
      { src_path := some "/y/a.jpg", file_name := some "a.jpg", size := some 100,
        width := some 2, height := some 3, partial_hash := some "f",
        mtime := some 1, date_taken := some 2 } = 100 :=
  ⟨rfl, by decide,
    similarity_capped_and_identical_scores_100.2
      { src_path := some "/x/a.jpg", file_name := some "a.jpg", size := some 100,
        width := some 2, height := some 3, partial_hash := some "f",
        mtime := some 1, date_taken := some 2 }
      { src_path := some "/y/a.jpg", file_name := some "a.jpg", size := some 100,
        width := some 2, height := some 3, partial_hash := some "f",
        mtime := some 1, date_taken := some 2 }
      "f" "a.jpg" 100 2 3 2 1 rfl rfl rfl rfl (by decide) rfl rfl (by decide)
      rfl rfl (by decide) rfl rfl rfl rfl rfl rfl⟩

/-! ## Claim C1: similarity scoring symmetry

Five of the six signals are symmetric (absolute differences, maxima and
equalities).  The filename signal is not: it delegates to
`SequenceMatcher.ratio()`, and difflib's Ratcliff–Obershelp matching is
order-dependent (already on 3–5 character names, and drastically under the
autojunk heuristic for names of length ≥ 200), so the full score is not
symmetric. -/

theorem partialHashScore_comm (l r : FeatureRecord) :
    partialHashScore l r = partialHashScore r l := by
  unfold partialHashScore
  cases l.partial_hash <;> cases r.partial_hash <;> simp [eq_comm]

theorem sizeScore_comm (l r : FeatureRecord) : sizeScore l r = sizeScore r l := by
  unfold sizeScore
  cases l.size <;> cases r.size <;>
    simp only [abs_sub_comm, max_comm, and_comm]

theorem resolutionScore_comm (l r : FeatureRecord) :
    resolutionScore l r = resolutionScore r l := by
  unfold resolutionScore
  cases hlw : l.width <;> cases hrw : r.width <;>
    cases hlh : l.height <;> cases hrh : r.height <;>
    simp only [abs_sub_comm, max_comm]
  rename_i wl wr hl hr
  by_cases h1 : 0 < wl ∧ 0 < wr ∧ 0 < hl ∧ 0 < hr
  · have h2 : 0 < wr ∧ 0 < wl ∧ 0 < hr ∧ 0 < hl := ⟨h1.2.1, h1.1, h1.2.2.2, h1.2.2.1⟩
    rw [if_pos h1, if_pos h2]
    by_cases he : wl = wr ∧ hl = hr
    · have he2 : wr = wl ∧ hr = hl := ⟨he.1.symm, he.2.symm⟩
      rw [if_pos he, if_pos he2]
    · have he2 : ¬ (wr = wl ∧ hr = hl) := fun h => he ⟨h.1.symm, h.2.symm⟩
      rw [if_neg he, if_neg he2]
      simp only [abs_sub_comm, max_comm, and_comm]
  · have h2 : ¬ (0 < wr ∧ 0 < wl ∧ 0 < hr ∧ 0 < hl) := fun h =>
      h1 ⟨h.2.1, h.1, h.2.2.2, h.2.2.1⟩
    rw [if_neg h1, if_neg h2]

theorem dateTakenScore_comm (l r : FeatureRecord) :
    dateTakenScore l r = dateTakenScore r l := by
  unfold dateTakenScore
  cases l.date_taken <;> cases r.date_taken <;> simp only [abs_sub_comm]

theorem mtimeScore_comm (l r : FeatureRecord) : mtimeScore l r = mtimeScore r l := by
  unfold mtimeScore
  cases l.mtime <;> cases r.mtime <;> simp only [abs_sub_comm]

/-- C1 (counterexample): two records whose filenames are `"aba"` and
`"babba"` (all other features absent) score differently in the two orders:
`SequenceMatcher(None,"aba","babba").ratio()` is `0.75` but
`SequenceMatcher(None,"babba","aba").ratio()` is `0.5`, giving scores
`7.5` and `5.0`. -/
theorem similarity_not_symmetric :
    calculateSimilarity { file_name := some "aba" } { file_name := some "babba" } ≠
      calculateSimilarity { file_name := some "babba" } { file_name := some "aba" } := by
  with_unfolding_all decide

/-- C1 (amended): the similarity score is symmetric in every signal except
the filename signal; it is symmetric for every pair of records whose
filename-similarity contribution happens to be symmetric (in particular
whenever either filename is absent, or the two filenames are equal). -/
theorem similarity_symmetric_given_name_ratio
    (l r : FeatureRecord) (hname : filenameScore l r = filenameScore r l) :
    calculateSimilarity l r = calculateSimilarity r l := by
  unfold calculateSimilarity rawSimilarity
  rw [partialHashScore_comm, sizeScore_comm, resolutionScore_comm,
    dateTakenScore_comm, mtimeScore_comm, hname]

/-- Witness for `similarity_symmetric_given_name_ratio`: equal filenames,
different sizes and mtimes. -/
theorem similarity_symmetric_given_name_ratio_witness :
    filenameScore { file_name := some "img_001.jpg", size := some 100, mtime := some 10 }
        { file_name := some "img_001.jpg", size := some 2000, mtime := some 90 } =
      filenameScore { file_name := some "img_001.jpg", size := some 2000, mtime := some 90 }
        { file_name := some "img_001.jpg", size := some 100, mtime := some 10 } ∧
    calculateSimilarity
        { file_name := some "img_001.jpg", size := some 100, mtime := some 10 }
        { file_name := some "img_001.jpg", size := some 2000, mtime := some 90 } =
      calculateSimilarity
        { file_name := some "img_001.jpg", size := some 2000, mtime := some 90 }
        { file_name := some "img_001.jpg", size := some 100, mtime := some 10 } :=
  ⟨rfl, similarity_symmetric_given_name_ratio _ _ rfl⟩

/-! ## Claim C10: zero sizes earn no size credit -/

/-- C10: when both records have size 0 (two empty files), the size signal
contributes nothing even though the sizes are equal — the code requires
both sizes to be truthy (nonzero) before awarding size credit — and the
total score reduces to the sum of the remaining five signals. -/
theorem zero_sizes_earn_no_size_credit (l r : FeatureRecord)
    (hl : l.size = some 0) (hr : r.size = some 0) :
    sizeScore l r = 0 ∧
    calculateSimilarity l r =
      round2 (min (partialHashScore l r + resolutionScore l r + filenameScore l r +
        dateTakenScore l r + mtimeScore l r) 100) := by
  have hs : sizeScore l r = 0 := by
    unfold sizeScore
    rw [hl, hr]
    simp
  refine ⟨hs, ?_⟩
  unfold calculateSimilarity rawSimilarity
  rw [hs]
  ring_nf

/-- Witness for `zero_sizes_earn_no_size_credit` on two records of empty
files. -/
theorem zero_sizes_earn_no_size_credit_witness :
    ({ src_path := some "/a/e1.jpg", size := some 0, mtime := some 5 }
        : FeatureRecord).size = some 0 ∧
    sizeScore { src_path := some "/a/e1.jpg", size := some 0, mtime := some 5 }
      { src_path := some "/b/e2.jpg", size := some 0, mtime := some 5 } = 0 :=
  ⟨rfl,
    (zero_sizes_earn_no_size_credit
      { src_path := some "/a/e1.jpg", size := some 0, mtime := some 5 }
      { src_path := some "/b/e2.jpg", size := some 0, mtime := some 5 } rfl rfl).1⟩
